import Mathlib

/-!
Shallow embedding of the notebook code of santiagocasas/notebooks:
the Fibonacci list function, iterator class and generator from the
Iterator notebook, the cardinality demonstration from the Definitions
notebook, and the Richardson-Lucy deconvolution routine.

Python integers are modelled as Int, Python lists as List, NumPy 2-D
float arrays as functions Fin m → Fin n → ℚ (exact scalars standing for
the float values), and the external astropy convolve_fft primitive as an
explicit function parameter, since it is library code outside this
repository.
-/

namespace Notebooks

/-- Python range(e) for an integer bound e: the list [0, 1, ..., e-1],
empty when e ≤ 0. -/
def pyRange (e : Int) : List Int :=
  (List.range e.toNat).map (fun i : Nat => (i : Int))

/-- The for-loop body of fibonacci: for each element of the range list,
previous, current = current, previous + current, then res.append(previous)
(the appended value is the old current). -/
def fibonacciLoop : List Int → Int → Int → List Int → List Int
  | [], _, _, res => res
  | _ :: rest, previous, current, res =>
      fibonacciLoop rest current (previous + current) (res ++ [current])

/-- def fibonacci(end) of the Iterator notebook: res = []; previous,
current = 0, 1; the loop over range(end); return res. -/
def fibonacci (e : Int) : List Int :=
  fibonacciLoop (pyRange e) 0 1 []

/-- State of the class fibonacci_iter: the fields set by its constructor. -/
structure fibonacci_iter where
  previous : Int
  current : Int
deriving DecidableEq, Repr

/-- The constructor fibonacci_iter(): previous = 0, current = 1. -/
def fibonacci_iter.new : fibonacci_iter := ⟨0, 1⟩

/-- The method next of fibonacci_iter: value = current; current +=
previous; previous = value; return value. Returns the value and the
updated object. -/
def fibonacci_iter.next (s : fibonacci_iter) : Int × fibonacci_iter :=
  let value := s.current
  (value, { previous := value, current := s.current + s.previous })

/-- list(islice(it, 0, nn)): call next nn times, collecting the returned
values in order. -/
def islice0 : Nat → fibonacci_iter → List Int
  | 0, _ => []
  | nn + 1, s => (s.next).1 :: islice0 nn (s.next).2

/-- The object reached from fibonacci_iter() after k calls to next. -/
def iterState : Nat → fibonacci_iter
  | 0 => fibonacci_iter.new
  | k + 1 => ((iterState k).next).2

/-- One resumption of the generator fibonacci_gen from its loop-head state
(previous, current): the body while True: yield current; previous, current
= current, previous + current always reaches the yield, producing the
yielded value and the next loop-head state; none would model the generator
returning (StopIteration). The argument e is the parameter end of the
source, which the body never reads. -/
def fibonacci_gen_step (e : Int) (s : Int × Int) : Option (Int × (Int × Int)) :=
  some (s.2, (s.2, s.1 + s.2))

/-- The outcome of the k-th resumption of fibonacci_gen(e), starting from
the initial state previous, current = 0, 1. -/
def fibonacci_gen_run (e : Int) : Nat → Option (Int × (Int × Int))
  | 0 => fibonacci_gen_step e (0, 1)
  | k + 1 => (fibonacci_gen_run e k).bind (fun r => fibonacci_gen_step e r.2)

/-- Collect the first nn values yielded by the generator from state s,
stopping early if it ever stops yielding. -/
def fibonacci_gen_takeAux (e : Int) : Nat → Int × Int → List Int
  | 0, _ => []
  | nn + 1, s =>
      match fibonacci_gen_step e s with
      | none => []
      | some (v, t) => v :: fibonacci_gen_takeAux e nn t

/-- The first nn values yielded by a fresh fibonacci_gen(e). -/
def fibonacci_gen_take (e : Int) (nn : Nat) : List Int :=
  fibonacci_gen_takeAux e nn (0, 1)

/-- Python set(xs): the finite set of the elements of the list xs. -/
def pySet (xs : List Int) : Finset Int := xs.toFinset

/-- Python len on a set: its cardinality. -/
def pyLen (s : Finset Int) : Nat := s.card

/-- The set A = set([1, 1, 2, 3, 5]) of the Definitions notebook. -/
def A : Finset Int := pySet [1, 1, 2, 3, 5]

/-- The mathematical Fibonacci sequence with F 0 = 0, F 1 = 1. -/
def mathFib : Nat → Int
  | 0 => 0
  | 1 => 1
  | k + 2 => mathFib k + mathFib (k + 1)

/-- The tail of the Fibonacci recurrence generated from a state
(previous, current): the list c, p + c is folded forward nn times. -/
def fibFrom (previous current : Int) : Nat → List Int
  | 0 => []
  | nn + 1 => current :: fibFrom current (previous + current) nn

theorem fibonacciLoop_eq (l : List Int) : ∀ (p c : Int) (res : List Int),
    fibonacciLoop l p c res = res ++ fibFrom p c l.length := by
  induction l with
  | nil => intro p c res; simp [fibonacciLoop, fibFrom]
  | cons x rest ih =>
      intro p c res
      simp only [fibonacciLoop, List.length_cons, fibFrom, ih, List.append_assoc,
        List.singleton_append]

theorem mathFib_add_two (k : Nat) : mathFib k + mathFib (k + 1) = mathFib (k + 2) := rfl

theorem fibFrom_mathFib : ∀ (nn k : Nat),
    fibFrom (mathFib k) (mathFib (k + 1)) nn
      = (List.range nn).map (fun i => mathFib (k + 1 + i)) := by
  intro nn
  induction nn with
  | zero => intro k; simp [fibFrom]
  | succ n ih =>
      intro k
      rw [List.range_succ_eq_map, List.map_cons, List.map_map]
      show mathFib (k + 1) :: fibFrom (mathFib (k + 1)) (mathFib k + mathFib (k + 1)) n = _
      rw [mathFib_add_two k, ih (k + 1)]
      have hf : (fun i => mathFib (k + 1 + 1 + i)) = (fun i => mathFib (k + 1 + i)) ∘ Nat.succ := by
        funext i
        show mathFib (k + 1 + 1 + i) = mathFib (k + 1 + (i + 1))
        congr 1
        omega
      rw [hf]

theorem fibFrom01 (nn : Nat) :
    fibFrom 0 1 nn = (List.range nn).map (fun k => mathFib (k + 1)) := by
  have h := fibFrom_mathFib nn 0
  have h0 : (fun i => mathFib (0 + 1 + i)) = (fun k : Nat => mathFib (k + 1)) := by
    funext i
    congr 1
    omega
  simpa [mathFib, h0] using h

theorem pyRange_natCast_length (nn : Nat) : (pyRange (nn : Int)).length = nn := by
  rw [pyRange, List.length_map, List.length_range, Int.toNat_natCast]

theorem fibonacci_eq_map (nn : Nat) :
    fibonacci (nn : Int) = (List.range nn).map (fun k => mathFib (k + 1)) := by
  rw [fibonacci, fibonacciLoop_eq, pyRange_natCast_length, List.nil_append, fibFrom01]

theorem fibonacci_getD (nn k : Nat) (hk : k < nn) :
    (fibonacci (nn : Int)).getD k 0 = mathFib (k + 1) := by
  rw [fibonacci_eq_map]
  have hk2 : k < ((List.range nn).map (fun k => mathFib (k + 1))).length := by
    simpa using hk
  rw [List.getD_eq_getElem _ _ hk2]
  simp

/-- C2: for every integer n ≥ 0, fibonacci(n) returns a list of exactly n
integers whose first two elements (when present) are 1 and 1, and in which
every element of index 2 ≤ k < n is the sum of the two preceding ones. -/
theorem fibonacci_correct (nn : Nat) :
    (fibonacci (nn : Int)).length = nn ∧
    (1 ≤ nn → (fibonacci (nn : Int)).getD 0 0 = 1) ∧
    (2 ≤ nn → (fibonacci (nn : Int)).getD 1 0 = 1) ∧
    (∀ k, 2 ≤ k → k < nn →
      (fibonacci (nn : Int)).getD k 0 =
        (fibonacci (nn : Int)).getD (k - 1) 0 + (fibonacci (nn : Int)).getD (k - 2) 0) := by
  refine ⟨?_, ?_, ?_, ?_⟩
  · rw [fibonacci_eq_map]; simp
  · intro h; rw [fibonacci_getD nn 0 (by omega)]; rfl
  · intro h; rw [fibonacci_getD nn 1 (by omega)]; rfl
  · intro k h2 hk
    rw [fibonacci_getD nn k hk, fibonacci_getD nn (k - 1) (by omega),
      fibonacci_getD nn (k - 2) (by omega)]
    obtain ⟨j, rfl⟩ : ∃ j, k = j + 2 := ⟨k - 2, by omega⟩
    have e1 : j + 2 - 1 + 1 = j + 2 := by omega
    have e2 : j + 2 - 2 + 1 = j + 1 := by omega
    rw [e1, e2, ← mathFib_add_two (j + 1), ← mathFib_add_two j]
    show mathFib (j + 1) + (mathFib j + mathFib (j + 1)) = _
    ring

theorem islice0_eq_fibFrom : ∀ (nn : Nat) (p c : Int),
    islice0 nn ⟨p, c⟩ = fibFrom p c nn := by
  intro nn
  induction nn with
  | zero => intro p c; rfl
  | succ n ih =>
      intro p c
      show c :: islice0 n ⟨c, c + p⟩ = c :: fibFrom c (p + c) n
      rw [ih, Int.add_comm c p]

/-- C3: collecting the first n values of a fresh fibonacci_iter() via
islice yields exactly fibonacci(n). -/
theorem fibonacci_iter_agrees (nn : Nat) :
    islice0 nn fibonacci_iter.new = fibonacci (nn : Int) := by
  rw [fibonacci_eq_map, ← fibFrom01]
  exact islice0_eq_fibFrom nn 0 1

theorem fibonacci_gen_takeAux_eq : ∀ (nn : Nat) (e p c : Int),
    fibonacci_gen_takeAux e nn (p, c) = fibFrom p c nn := by
  intro nn
  induction nn with
  | zero => intro e p c; rfl
  | succ n ih =>
      intro e p c
      show c :: fibonacci_gen_takeAux e n (c, p + c) = c :: fibFrom c (p + c) n
      rw [ih]

/-- C4: for every end argument e and every n ≥ 0, the first n values
yielded by fibonacci_gen(e) are exactly fibonacci(n), and they do not
depend on e. -/
theorem fibonacci_gen_agrees (e : Int) (nn : Nat) :
    fibonacci_gen_take e nn = fibonacci (nn : Int) ∧
    (∀ e2 : Int, fibonacci_gen_take e nn = fibonacci_gen_take e2 nn) := by
  constructor
  · rw [fibonacci_gen_take, fibonacci_gen_takeAux_eq, fibonacci_eq_map, ← fibFrom01]
  · intro e2
    rw [fibonacci_gen_take, fibonacci_gen_take, fibonacci_gen_takeAux_eq,
      fibonacci_gen_takeAux_eq]

/-- C8: fibonacci_gen never exhausts: every resumption yields a value
(never StopIteration), and the resumption step never reads the parameter
end. -/
theorem fibonacci_gen_never_stops (e : Int) (k : Nat) :
    (∃ v s, fibonacci_gen_run e k = some (v, s)) ∧
    (∀ (e2 : Int) (s : Int × Int), fibonacci_gen_step e s = fibonacci_gen_step e2 s) := by
  constructor
  · induction k with
    | zero => exact ⟨1, (1, 1), rfl⟩
    | succ n ih =>
        obtain ⟨v, s, hs⟩ := ih
        exact ⟨s.2, (s.2, s.1 + s.2), by rw [fibonacci_gen_run, hs]; rfl⟩
  · intro e2 s; rfl

/-- C9: after k calls to next, the fibonacci_iter state is exactly
(F k, F (k+1)) of the Fibonacci sequence with F 0 = 0 and F 1 = 1, and
next returns the pre-call current while advancing the state by one. -/
theorem fibonacci_iter_invariant (k : Nat) :
    (iterState k).previous = mathFib k ∧
    (iterState k).current = mathFib (k + 1) ∧
    ((iterState k).next).1 = (iterState k).current ∧
    ((iterState k).next).2 = iterState (k + 1) := by
  have main : ∀ j, (iterState j).previous = mathFib j ∧ (iterState j).current = mathFib (j + 1) := by
    intro j
    induction j with
    | zero => exact ⟨rfl, rfl⟩
    | succ i ih =>
        obtain ⟨hp, hc⟩ := ih
        constructor
        · show ((iterState i).next).2.previous = mathFib (i + 1)
          rw [fibonacci_iter.next]
          exact hc
        · show ((iterState i).next).2.current = mathFib (i + 2)
          rw [fibonacci_iter.next]
          show (iterState i).current + (iterState i).previous = mathFib (i + 2)
          rw [hp, hc, ← mathFib_add_two i]
          ring
  exact ⟨(main k).1, (main k).2, rfl, rfl⟩

/-- C5: len(set(xs)) is the number of distinct elements of the list xs,
and in particular the Definitions notebook prints card(A) = 4 for
A = set([1, 1, 2, 3, 5]). -/
theorem cardinality_demo :
    (∀ xs : List Int, pyLen (pySet xs) = xs.dedup.length) ∧ pyLen A = 4 := by
  constructor
  · intro xs
    simp [pyLen, pySet, List.card_toFinset]
  · rfl

/-- A NumPy 2-D float array of shape m × n, with exact scalars standing
for the float values. -/
def Img (m n : Nat) : Type := Fin m → Fin n → ℚ

/-- Elementwise product of two arrays (NumPy *). -/
def imgMul {m n : Nat} (a b : Img m n) : Img m n := fun i j => a i j * b i j

/-- Elementwise quotient of two arrays (NumPy /). -/
def imgDiv {m n : Nat} (a b : Img m n) : Img m n := fun i j => a i j / b i j

/-- np.ones(shape) for a 2-D shape. -/
def npOnes (m n : Nat) : Img m n := fun _ _ => 1

/-- Product of a scalar with an array. -/
def scalarMul {m n : Nat} (a : ℚ) (b : Img m n) : Img m n := fun i j => a * b i j

/-- np.rot90: rotate a 2-D array counterclockwise by 90 degrees. -/
def np_rot90 {m n : Nat} (a : Img m n) : Img n m := fun i j => a j (Fin.rev i)

/-- np.rot90(a, 2): the 90-degree rotation applied twice. -/
def np_rot90_2 {m n : Nat} (a : Img m n) : Img m n := np_rot90 (np_rot90 a)

/-- def convolve(image, kernel) of the notebook: a wrapper around the
external astropy convolve_fft primitive with fixed options (boundary wrap,
crop False, nan_treatment fill, normalize_kernel False); that library is
outside this repository, so the configured primitive is the parameter
cfft. -/
def convolve {m n : Nat} (cfft : Img m n → Img m n → Img m n)
    (image kernel : Img m n) : Img m n :=
  cfft image kernel

/-- def RL_Deconvolve(image, psf, n_iter) of the notebook: x_hat = 0.5 *
np.ones(image.shape); psf_rot = np.rot90(psf, 2); for i in range(n_iter):
x_hat *= convolve(image / convolve(x_hat, psf), psf_rot); return x_hat. -/
def RL_Deconvolve {m n : Nat} (cfft : Img m n → Img m n → Img m n)
    (image psf : Img m n) (n_iter : Int) : Img m n :=
  let x_hat0 := scalarMul (1/2) (npOnes m n)
  let psf_rot := np_rot90_2 psf
  (pyRange n_iter).foldl
    (fun x_hat _ =>
      imgMul x_hat (convolve cfft (imgDiv image (convolve cfft x_hat psf)) psf_rot))
    x_hat0

/-- The body of the RL_Deconvolve loop as a function of the current
estimate. -/
def RL_update {m n : Nat} (cfft : Img m n → Img m n → Img m n)
    (image psf psf_rot x_hat : Img m n) : Img m n :=
  imgMul x_hat (convolve cfft (imgDiv image (convolve cfft x_hat psf)) psf_rot)

/-- Rotation of a 2-D array by 180 degrees, as the spec words it. -/
def rot180 {m n : Nat} (a : Img m n) : Img m n := fun i j => a (Fin.rev i) (Fin.rev j)

/-- Modelled from the spec wording of Richardson-Lucy deconvolution: the
estimate sequence starting from an array of 0.5 with the shape of the
image, each step applying the multiplicative correction by
convolve(image / convolve(x_hat, psf), psf rotated by 180 degrees). -/
def RL_spec_estimate {m n : Nat} (cfft : Img m n → Img m n → Img m n)
    (image psf : Img m n) : Nat → Img m n
  | 0 => fun _ _ => 1/2
  | k + 1 =>
      imgMul (RL_spec_estimate cfft image psf k)
        (convolve cfft
          (imgDiv image (convolve cfft (RL_spec_estimate cfft image psf k) psf))
          (rot180 psf))

theorem np_rot90_2_eq_rot180 {m n : Nat} (a : Img m n) : np_rot90_2 a = rot180 a := rfl

theorem half_ones {m n : Nat} :
    scalarMul (1/2) (npOnes m n) = (fun _ _ => 1/2 : Img m n) := by
  funext i j
  show (1/2 : ℚ) * 1 = 1/2
  rw [mul_one]

theorem pyRange_natCast_succ (k : Nat) :
    pyRange ((k + 1 : Nat) : Int) = pyRange (k : Int) ++ [(k : Int)] := by
  simp [pyRange, List.range_succ]

theorem RL_Deconvolve_zero {m n : Nat} (cfft : Img m n → Img m n → Img m n)
    (image psf : Img m n) :
    RL_Deconvolve cfft image psf ((0 : Nat) : Int) = scalarMul (1/2) (npOnes m n) := rfl

theorem RL_Deconvolve_succ {m n : Nat} (cfft : Img m n → Img m n → Img m n)
    (image psf : Img m n) (k : Nat) :
    RL_Deconvolve cfft image psf ((k + 1 : Nat) : Int)
      = RL_update cfft image psf (np_rot90_2 psf) (RL_Deconvolve cfft image psf (k : Int)) := by
  simp only [RL_Deconvolve, RL_update, pyRange_natCast_succ, List.foldl_append,
    List.foldl_cons, List.foldl_nil]

theorem RL_Deconvolve_iterate {m n : Nat} (cfft : Img m n → Img m n → Img m n)
    (image psf : Img m n) (k : Nat) :
    RL_Deconvolve cfft image psf (k : Int)
      = (RL_update cfft image psf (np_rot90_2 psf))^[k] (scalarMul (1/2) (npOnes m n)) := by
  induction k with
  | zero => exact RL_Deconvolve_zero cfft image psf
  | succ j ih =>
      rw [RL_Deconvolve_succ, ih, Function.iterate_succ_apply']

/-- C1: RL_Deconvolve implements Richardson-Lucy deconvolution as the spec
describes it: starting from an array of 0.5 with the shape of the image,
with the PSF rotated by 180 degrees, each of the n_iter iterations applies
the multiplicative correction x_hat := x_hat * convolve(image /
convolve(x_hat, psf), psf_rotated), and the final estimate is returned. -/
theorem RL_Deconvolve_implements_spec {m n : Nat}
    (cfft : Img m n → Img m n → Img m n) (image psf : Img m n) (k : Nat) :
    RL_Deconvolve cfft image psf (k : Int) = RL_spec_estimate cfft image psf k := by
  induction k with
  | zero =>
      rw [RL_Deconvolve_zero, half_ones]
      rfl
  | succ j ih =>
      rw [RL_Deconvolve_succ, ih, RL_update, np_rot90_2_eq_rot180]
      rfl

/-- C6: RL_Deconvolve is a bounded fixed-point iteration: for n_iter =
k ≥ 0 it applies the update exactly k times to the initial estimate and
returns the result, so one more iteration means exactly one more update
and there is no convergence test or early exit. -/
theorem RL_Deconvolve_bounded {m n : Nat} (cfft : Img m n → Img m n → Img m n)
    (image psf : Img m n) (k : Nat) :
    RL_Deconvolve cfft image psf (k : Int)
      = (RL_update cfft image psf (np_rot90_2 psf))^[k] (scalarMul (1/2) (npOnes m n)) ∧
    RL_Deconvolve cfft image psf ((k + 1 : Nat) : Int)
      = RL_update cfft image psf (np_rot90_2 psf) (RL_Deconvolve cfft image psf (k : Int)) :=
  ⟨RL_Deconvolve_iterate cfft image psf k, RL_Deconvolve_succ cfft image psf k⟩

/-- The store of the arrays RL_Deconvolve touches: its two arguments and
its two local arrays. -/
structure RLState (m n : Nat) where
  image : Img m n
  psf : Img m n
  psf_rot : Img m n
  x_hat : Img m n

/-- One pass of the RL_Deconvolve loop over the store: the in-place
multiplication assigns only x_hat. -/
def RL_iterS {m n : Nat} (cfft : Img m n → Img m n → Img m n)
    (s : RLState m n) : RLState m n :=
  { s with
    x_hat := imgMul s.x_hat
      (convolve cfft (imgDiv s.image (convolve cfft s.x_hat s.psf)) s.psf_rot) }

/-- The RL_Deconvolve body run on the explicit store, recording the final
values of all four arrays. -/
def RL_runS {m n : Nat} (cfft : Img m n → Img m n → Img m n)
    (image psf : Img m n) (n_iter : Int) : RLState m n :=
  (pyRange n_iter).foldl (fun s _ => RL_iterS cfft s)
    { image := image, psf := psf, psf_rot := np_rot90_2 psf,
      x_hat := scalarMul (1/2) (npOnes m n) }

theorem RL_iterS_foldl {m n : Nat} (cfft : Img m n → Img m n → Img m n) :
    ∀ (l : List Int) (s : RLState m n),
      l.foldl (fun s _ => RL_iterS cfft s) s =
        { image := s.image, psf := s.psf, psf_rot := s.psf_rot,
          x_hat := l.foldl
            (fun x _ =>
              imgMul x (convolve cfft (imgDiv s.image (convolve cfft x s.psf)) s.psf_rot))
            s.x_hat } := by
  intro l
  induction l with
  | nil => intro s; rfl
  | cons a rest ih =>
      intro s
      rw [List.foldl_cons, List.foldl_cons, ih]
      rfl

/-- C10: RL_Deconvolve does not modify its arguments: run on an explicit
store, the image and psf slots hold exactly their initial values after the
call, and the returned x_hat is the value RL_Deconvolve computes. -/
theorem RL_Deconvolve_frame {m n : Nat} (cfft : Img m n → Img m n → Img m n)
    (image psf : Img m n) (e : Int) :
    (RL_runS cfft image psf e).image = image ∧
    (RL_runS cfft image psf e).psf = psf ∧
    (RL_runS cfft image psf e).x_hat = RL_Deconvolve cfft image psf e := by
  rw [RL_runS, RL_iterS_foldl]
  exact ⟨rfl, rfl, rfl⟩

/-- The notebook convolve wrapper when the external convolve_fft call may
raise: the outcome of the call is returned as is, unhandled. -/
def convolveE {m n : Nat} {ε : Type}
    (cfftE : Img m n → Img m n → Except ε (Img m n))
    (image kernel : Img m n) : Except ε (Img m n) :=
  cfftE image kernel

/-- One iteration of the RL_Deconvolve loop when the library primitives
may raise: convolve(x_hat, psf), then the division image / ..., then
convolve(..., psf_rot); no call is guarded by any handler, so the first
error aborts the iteration and propagates unchanged. -/
def RL_stepE {m n : Nat} {ε : Type}
    (cfftE divE : Img m n → Img m n → Except ε (Img m n))
    (image psf psf_rot x_hat : Img m n) : Except ε (Img m n) :=
  match convolveE cfftE x_hat psf with
  | .error er => .error er
  | .ok c1 =>
      match divE image c1 with
      | .error er => .error er
      | .ok q =>
          match convolveE cfftE q psf_rot with
          | .error er => .error er
          | .ok c2 => .ok (imgMul x_hat c2)

/-- The RL_Deconvolve loop over fallible primitives: an error of any
iteration aborts the remaining iterations and propagates unchanged. -/
def RL_loopE {m n : Nat} {ε : Type}
    (cfftE divE : Img m n → Img m n → Except ε (Img m n))
    (image psf psf_rot : Img m n) : Nat → Img m n → Except ε (Img m n)
  | 0, x_hat => .ok x_hat
  | k + 1, x_hat =>
      match RL_stepE cfftE divE image psf psf_rot x_hat with
      | .error er => .error er
      | .ok x2 => RL_loopE cfftE divE image psf psf_rot k x2

/-- RL_Deconvolve over fallible library primitives. -/
def RL_DeconvolveE {m n : Nat} {ε : Type}
    (cfftE divE : Img m n → Img m n → Except ε (Img m n))
    (image psf : Img m n) (k : Nat) : Except ε (Img m n) :=
  RL_loopE cfftE divE image psf (np_rot90_2 psf) k (scalarMul (1/2) (npOnes m n))

theorem RL_stepE_error_src {m n : Nat} {ε : Type}
    (cfftE divE : Img m n → Img m n → Except ε (Img m n))
    (image psf psf_rot x_hat : Img m n) (er : ε)
    (h : RL_stepE cfftE divE image psf psf_rot x_hat = .error er) :
    (∃ a b, cfftE a b = .error er) ∨ (∃ a b, divE a b = .error er) := by
  rw [RL_stepE] at h
  split at h
  next e1 heq =>
    injection h with h2
    subst h2
    exact Or.inl ⟨x_hat, psf, heq⟩
  next c1 heq1 =>
    split at h
    next e2 heq2 =>
      injection h with h2
      subst h2
      exact Or.inr ⟨image, c1, heq2⟩
    next q heq2 =>
      split at h
      next e3 heq3 =>
        injection h with h2
        subst h2
        exact Or.inl ⟨q, psf_rot, heq3⟩
      next c2 heq3 =>
        exact Except.noConfusion h

theorem RL_loopE_error_src {m n : Nat} {ε : Type}
    (cfftE divE : Img m n → Img m n → Except ε (Img m n))
    (image psf psf_rot : Img m n) :
    ∀ (k : Nat) (x : Img m n) (er : ε),
      RL_loopE cfftE divE image psf psf_rot k x = .error er →
      (∃ a b, cfftE a b = .error er) ∨ (∃ a b, divE a b = .error er) := by
  intro k
  induction k with
  | zero =>
      intro x er h
      rw [RL_loopE] at h
      exact Except.noConfusion h
  | succ j ih =>
      intro x er h
      rw [RL_loopE] at h
      split at h
      next e1 heq =>
        injection h with h2
        subst h2
        exact RL_stepE_error_src cfftE divE image psf psf_rot x _ heq
      next x2 heq =>
        exact ih x2 er h

theorem RL_stepE_ok {m n : Nat} {ε : Type}
    (cfftE divE : Img m n → Img m n → Except ε (Img m n))
    (cfft : Img m n → Img m n → Img m n)
    (hc : ∀ a b, cfftE a b = .ok (cfft a b))
    (hd : ∀ a b, divE a b = .ok (imgDiv a b))
    (image psf psf_rot x_hat : Img m n) :
    RL_stepE cfftE divE image psf psf_rot x_hat
      = .ok (RL_update cfft image psf psf_rot x_hat) := by
  simp only [RL_stepE, convolveE, hc, hd]
  rfl

theorem RL_loopE_ok {m n : Nat} {ε : Type}
    (cfftE divE : Img m n → Img m n → Except ε (Img m n))
    (cfft : Img m n → Img m n → Img m n)
    (hc : ∀ a b, cfftE a b = .ok (cfft a b))
    (hd : ∀ a b, divE a b = .ok (imgDiv a b))
    (image psf psf_rot : Img m n) :
    ∀ (k : Nat) (x : Img m n),
      RL_loopE cfftE divE image psf psf_rot k x
        = .ok ((RL_update cfft image psf psf_rot)^[k] x) := by
  intro k
  induction k with
  | zero => intro x; rfl
  | succ j ih =>
      intro x
      rw [RL_loopE, RL_stepE_ok cfftE divE cfft hc hd]
      show RL_loopE cfftE divE image psf psf_rot j (RL_update cfft image psf psf_rot x) = _
      rw [ih, Function.iterate_succ_apply]

/-- C7: the operations contain no failure handling. Modelling the library
primitives of RL_Deconvolve (the convolve_fft call and the array division)
as fallible: any error the routine returns is exactly an error one of its
library calls returned, unchanged; when every library call succeeds it
returns the pure RL_Deconvolve result; and the division image /
convolve(x_hat, psf) is unguarded, so a division error on the first
iteration surfaces directly. The other operations (fibonacci,
fibonacci_iter.next, fibonacci_gen) make no fallible library calls and
are embedded as total functions. -/
theorem RL_no_failure_handling {m n : Nat} {ε : Type}
    (cfftE divE : Img m n → Img m n → Except ε (Img m n))
    (cfft : Img m n → Img m n → Img m n) (image psf : Img m n) (k : Nat) :
    (∀ er, RL_DeconvolveE cfftE divE image psf k = .error er →
      (∃ a b, cfftE a b = .error er) ∨ (∃ a b, divE a b = .error er)) ∧
    ((∀ a b, cfftE a b = .ok (cfft a b)) → (∀ a b, divE a b = .ok (imgDiv a b)) →
      RL_DeconvolveE cfftE divE image psf k = .ok (RL_Deconvolve cfft image psf (k : Int))) ∧
    (∀ er j, (∀ a b, cfftE a b = .ok (cfft a b)) →
      divE image (convolve cfft (scalarMul (1/2) (npOnes m n)) psf) = .error er →
      RL_DeconvolveE cfftE divE image psf (j + 1) = .error er) := by
  refine ⟨?_, ?_, ?_⟩
  · intro er h
    exact RL_loopE_error_src cfftE divE image psf (np_rot90_2 psf) k _ er h
  · intro hc hd
    rw [RL_DeconvolveE, RL_loopE_ok cfftE divE cfft hc hd, RL_Deconvolve_iterate]
  · intro er j hc hdiv
    rw [RL_DeconvolveE, RL_loopE]
    simp only [RL_stepE, convolveE, hc]
    rw [show convolve cfft (scalarMul (1/2) (npOnes m n)) psf
        = cfft (scalarMul (1/2) (npOnes m n)) psf from rfl] at hdiv
    simp only [hdiv]

end Notebooks
